import Mathlib

set_option linter.unusedVariables false

/-!
Verification of the windowed extraction and flattening pipeline of the
kusto-export-xlsx repository (src/main.py and src/main2.py), shallowly
embedded in Lean.

Timestamps appear in two representations, exactly as in the program:
- for the window-splitting loop and the KQL row-selection predicate,
  instants are `Nat` microseconds on one absolute time line;
- for normalization/flattening, a timestamp is a `DateTime` record of
  calendar components, mirroring Python's `datetime` object, and the
  textual form "%Y-%m-%dT%H:%M:%S.%fZ" is a genuine `String`.
The target timezone is carried as a fixed offset east of UTC in
microseconds (pytz's Asia/Kuala_Lumpur is the fixed offset +08:00 for the
program's date range).
-/

/-! ## Characters and fixed-width decimal text -/

/-- Numeric value of a decimal digit character. -/
def dval (c : Char) : Nat := c.toNat - 48

/-- The decimal digit character for `n < 10`. -/
def digitCharOf (n : Nat) : Char := Char.ofNat (48 + n)

/-- Fixed-width zero-padded decimal digits, most significant first: the model
of `strftime`'s zero-padded numeric fields (`%Y`, `%m`, `%d`, `%H`, `%M`,
`%S`, `%f`) on in-range values. -/
def padDigits : Nat → Nat → List Char
  | 0, _ => []
  | w + 1, n => digitCharOf (n / 10 ^ w) :: padDigits w (n % 10 ^ w)

/-- ASCII lowercasing of one character; the spec fixes single-byte-safe case
folding as the model of Python's `str.lower` here. -/
def lowerChar (c : Char) : Char :=
  if 'A' ≤ c ∧ c ≤ 'Z' then Char.ofNat (c.toNat + 32) else c

/-- Lowercased character sequence of a string (`s.lower()`). -/
def lowerStr (s : String) : List Char := s.data.map lowerChar

/-- Test whether `n` occurs at the very beginning of `h`. -/
def leadsWith : List Char → List Char → Bool
  | [], _ => true
  | _ :: _, [] => false
  | a :: as, b :: bs => a == b && leadsWith as bs

/-- Test whether `n` occurs contiguously somewhere inside `h`; the model of
Python's substring test `n in h`. -/
def hasSub (n : List Char) : List Char → Bool
  | [] => n.isEmpty
  | c :: cs => leadsWith n (c :: cs) || hasSub n cs

/-- The tag filter of `flatten_data` (main.py lines 96-100, main2.py lines
106-112): `"*" in ALLOWED_TAG_NAMES or any(pattern.lower() in
tag_name.lower() for pattern in ALLOWED_TAG_NAMES)`. -/
def matchesTag (tagName : String) (patterns : List String) : Bool :=
  patterns.contains "*" ||
    patterns.any fun p => hasSub (lowerStr p) (lowerStr tagName)

/-- The prose form of "`n` is a contiguous substring of `h`". -/
def SubstrOf (n h : List Char) : Prop := ∃ p q, h = p ++ n ++ q

/-! ## Datetimes, the calendar, and strftime -/

/-- A timezone-naive Python `datetime`: calendar components plus
microseconds, exactly the data `strptime` produces and `strftime` consumes. -/
structure DateTime where
  year : Nat
  month : Nat
  day : Nat
  hour : Nat
  minute : Nat
  second : Nat
  micro : Nat
deriving DecidableEq

/-- Gregorian leap-year rule. -/
def isLeap (y : Nat) : Bool := (y % 4 == 0 && y % 100 != 0) || y % 400 == 0

/-- Number of days of month `m` of year `y`. -/
def daysInMonth (y m : Nat) : Nat :=
  if m == 2 then (if isLeap y then 29 else 28)
  else if m == 4 || m == 6 || m == 9 || m == 11 then 30
  else 31

/-- The calendar day after `(y, m, d)`. -/
def succDay : Nat × Nat × Nat → Nat × Nat × Nat
  | (y, m, d) =>
    if d < daysInMonth y m then (y, m, d + 1)
    else if m < 12 then (y, m + 1, 1) else (y + 1, 1, 1)

def usecPerDay : Nat := 86400000000

/-- Advancing an aware datetime by `us` microseconds: the arithmetic behind
`astimezone` with a fixed-offset target zone east of UTC (time-of-day plus
offset, carrying whole days into the calendar date). -/
def dtAddMicros (dt : DateTime) (us : Nat) : DateTime :=
  let tod := ((dt.hour * 60 + dt.minute) * 60 + dt.second) * 1000000 + dt.micro + us
  let ymd := (succDay^[tod / usecPerDay]) (dt.year, dt.month, dt.day)
  let rem := tod % usecPerDay
  { year := ymd.1, month := ymd.2.1, day := ymd.2.2,
    hour := rem / 3600000000, minute := rem / 60000000 % 60,
    second := rem / 1000000 % 60, micro := rem % 1000000 }

/-- The text of `strftime("%Y-%m-%dT%H:%M:%S.")`: everything before the
microsecond digits. -/
def fmtHead (dt : DateTime) : List Char :=
  padDigits 4 dt.year ++ '-' :: padDigits 2 dt.month ++ '-' :: padDigits 2 dt.day ++
    'T' :: padDigits 2 dt.hour ++ ':' :: padDigits 2 dt.minute ++
    ':' :: padDigits 2 dt.second ++ ['.']

/-- The text of `strftime("%Y-%m-%dT%H:%M:%S.%f")`. -/
def fmtCore (dt : DateTime) : List Char := fmtHead dt ++ padDigits 6 dt.micro

/-- The text of `strftime("%Y-%m-%dT%H:%M:%S.%fZ")`: the canonical UTC textual form the
fetcher writes into the `dateTimeGenerated` column (main.py lines 60-62,
main2.py lines 69-71). -/
def fmtZ (dt : DateTime) : String := String.mk (fmtCore dt ++ ['Z'])

/-- The text of `strftime("%Y-%m-%d")`, the `date` field of a flat row. -/
def fmtDate (dt : DateTime) : String :=
  String.mk (padDigits 4 dt.year ++ '-' :: padDigits 2 dt.month ++ '-' :: padDigits 2 dt.day)

/-- The text of `strftime("%H:%M:%S.%f")`, the `time` field of a flat row. -/
def fmtTimeU (dt : DateTime) : String :=
  String.mk (padDigits 2 dt.hour ++ ':' :: padDigits 2 dt.minute ++
    ':' :: padDigits 2 dt.second ++ '.' :: padDigits 6 dt.micro)

/-- Component bounds under which the canonical text determines the datetime:
each numeric field fits its strftime field width. -/
def ValidDT (dt : DateTime) : Prop :=
  dt.year < 10000 ∧ dt.month < 100 ∧ dt.day < 100 ∧ dt.hour < 100 ∧
    dt.minute < 100 ∧ dt.second < 100 ∧ dt.micro < 1000000

instance (dt : DateTime) : Decidable (ValidDT dt) := by
  unfold ValidDT; infer_instance

/-! ## strptime -/

/-- Read exactly `w` decimal digits (CPython strptime `%Y` is `\d\d\d\d`),
accumulating onto `acc`. -/
def takeDigitsFix : Nat → Nat → List Char → Option (Nat × List Char)
  | 0, acc, cs => some (acc, cs)
  | _ + 1, _, [] => none
  | w + 1, acc, c :: cs =>
    if c.isDigit then takeDigitsFix w (acc * 10 + dval c) cs else none

/-- Read one or two decimal digits, greedily (CPython strptime `%m`, `%d`,
`%H`, `%M`, `%S` are `\d{1,2}`). -/
def takeD12 : List Char → Option (Nat × List Char)
  | [] => none
  | c :: cs =>
    if c.isDigit then
      match cs with
      | c' :: cs' => if c'.isDigit then some (dval c * 10 + dval c', cs') else some (dval c, cs)
      | [] => some (dval c, [])
    else none

/-- Value of a digit sequence, most significant first. -/
def digitsVal (l : List Char) : Nat := l.foldl (fun a c => a * 10 + dval c) 0

/-- CPython strptime `%f`: one to six digits, greedy, zero-padded on the
right to microseconds. -/
def takeFrac (cs : List Char) : Option (Nat × List Char) :=
  let ds := cs.takeWhile Char.isDigit
  if ds.length = 0 ∨ 6 < ds.length then none
  else some (digitsVal ds * 10 ^ (6 - ds.length), cs.dropWhile Char.isDigit)

/-- Consume one expected literal character. -/
def expectCh (c : Char) : List Char → Option (List Char)
  | [] => none
  | c' :: cs => if c' == c then some cs else none

/-- The strptime parser with format `"%Y-%m-%dT%H:%M:%S.%f"` applied to a prefix of
the input, returning the parsed datetime and the unconsumed remainder. -/
def parseCore (cs : List Char) : Option (DateTime × List Char) := do
  let (y, cs) ← takeDigitsFix 4 0 cs
  let cs ← expectCh '-' cs
  let (mo, cs) ← takeD12 cs
  let cs ← expectCh '-' cs
  let (d, cs) ← takeD12 cs
  let cs ← expectCh 'T' cs
  let (h, cs) ← takeD12 cs
  let cs ← expectCh ':' cs
  let (mi, cs) ← takeD12 cs
  let cs ← expectCh ':' cs
  let (se, cs) ← takeD12 cs
  let cs ← expectCh '.' cs
  let (us, cs) ← takeFrac cs
  pure (⟨y, mo, d, h, mi, se, us⟩, cs)

/-- The whole-string `datetime.strptime(s, "%Y-%m-%dT%H:%M:%S.%f")` (used
by main.py's `convert_to_local_time`); `none` models the `ValueError`. -/
def parseNoZ (cs : List Char) : Option DateTime :=
  match parseCore cs with
  | some (dt, []) => some dt
  | _ => none

/-- The whole-string `datetime.strptime(s, "%Y-%m-%dT%H:%M:%S.%fZ")` (used
by main2.py's `convert_to_local_time`); `none` models the `ValueError`. -/
def parseZ (cs : List Char) : Option DateTime :=
  match parseCore cs with
  | some (dt, ['Z']) => some dt
  | _ => none

/-- Python `s.rstrip("Z")`. -/
def rstripZ (s : List Char) : List Char :=
  (s.reverse.dropWhile (· == 'Z')).reverse

/-- main2.py `convert_to_local_time` (lines 82-85): parse the UTC text with
`"%Y-%m-%dT%H:%M:%S.%fZ"`, localize to UTC, shift into the target zone
(fixed offset `offUs` microseconds east of UTC). -/
def convert_to_local_time (s : String) (offUs : Nat) : Option DateTime :=
  (parseZ s.data).map (fun dt => dtAddMicros dt offUs)

/-- main.py `convert_to_local_time` (lines 77-81): same, but the format has
no trailing `Z`; its caller hands it an already-chopped string. -/
def convert_to_local_time_v1 (s : List Char) (offUs : Nat) : Option DateTime :=
  (parseNoZ s).map (fun dt => dtAddMicros dt offUs)

/-! ## Rows, the tag filter, and flattening -/

/-- A JSON scalar found in a tag reading's `value`. -/
inductive Val where
  | num (n : Int)
  | str (s : String)
deriving DecidableEq

/-- One element of a row's `data` array. Each field is optional because the
code reads every one with `item.get(...)`. -/
structure TagReading where
  modbusAddress : Option Int
  tagName : Option String
  unit : Option String
  value : Option Val
deriving DecidableEq

/-- The `data` column's text as the flattener sees it: either a well-formed
JSON array of readings (what `json.dumps` of the backend's array produces)
or text on which `json.loads` raises `JSONDecodeError`. -/
inductive Payload where
  | good (items : List TagReading)
  | bad (raw : String)
deriving DecidableEq

/-- A combined-result row handed to the flattener. -/
structure RawRow where
  dateTimeGenerated : String
  site : String
  data : Payload
deriving DecidableEq

/-- One flattened output row. -/
structure FlatRow where
  date : String
  time : String
  site : String
  modbusAddress : Option Int
  tagName : String
  unit : Option String
  value : Option Val
deriving DecidableEq

/-- The flat-row dictionary built for one reading (both files build the same
fields, with `item.get("tagName", "")` defaulting to the empty string). -/
def mkFlatRow (loc : DateTime) (site : String) (item : TagReading) : FlatRow :=
  { date := fmtDate loc, time := fmtTimeU loc, site := site,
    modbusAddress := item.modbusAddress, tagName := item.tagName.getD "",
    unit := item.unit, value := item.value }

/-- The filter condition applied to one reading. -/
def passesFilter (allowed : List String) (item : TagReading) : Bool :=
  matchesTag (item.tagName.getD "") allowed

/-- main2.py `flatten_data` (lines 88-115). `Except.error` models an
exception the row-level handler does not catch (the `ValueError` of
`strptime`); the `List String` component is the log of
"Error processing row" messages printed by the `except` branch. -/
def flatten_data (allowed : List String) (offUs : Nat) (row : RawRow) :
    Except String (List FlatRow × List String) :=
  match parseZ row.dateTimeGenerated.data with
  | none => .error "time data does not match format"
  | some dt =>
    let loc := dtAddMicros dt offUs
    match row.data with
    | .bad raw => .ok ([], ["Error processing row: " ++ raw])
    | .good items =>
      .ok ((items.filter (passesFilter allowed)).map (mkFlatRow loc row.site), [])

/-- main.py `flatten_data` (lines 85-114). It first rewrites the timestamp
text: `utc_date_time = row["dateTimeGenerated"][:-2] + "Z"` (drop the last
two characters, append `"Z"`), then parses `utc_date_time.rstrip("Z")` with
the Z-less format. The rest is identical to main2.py's flattener. -/
def flatten_data_v1 (allowed : List String) (offUs : Nat) (row : RawRow) :
    Except String (List FlatRow × List String) :=
  let s := row.dateTimeGenerated.data
  match parseNoZ (rstripZ (s.dropLast.dropLast ++ ['Z'])) with
  | none => .error "time data does not match format"
  | some dt =>
    let loc := dtAddMicros dt offUs
    match row.data with
    | .bad raw => .ok ([], ["Error processing row: " ++ raw])
    | .good items =>
      .ok ((items.filter (passesFilter allowed)).map (mkFlatRow loc row.site), [])

/-- The flattening comprehension (main.py lines 119-123, main2.py lines
239-243): flatten each row in input order and concatenate; an uncaught
exception in any row aborts the whole comprehension. -/
def flattenAll (allowed : List String) (offUs : Nat) :
    List RawRow → Except String (List FlatRow × List String)
  | [] => .ok ([], [])
  | r :: rs => do
    let p ← flatten_data allowed offUs r
    let ps ← flattenAll allowed offUs rs
    pure (p.1 ++ ps.1, p.2 ++ ps.2)

/-! ## The window splitter, the query predicate, and the fetch loop -/

/-- The sub-window loop of main2.py `get_query_results` (lines 55-76):
starting at `s`, repeatedly emit `(cursor, min (cursor + c) e)` and advance
the cursor to the emitted end, stopping once the cursor reaches `e`.
Instants are microseconds on an absolute time line; `c` is the chunk
(`timedelta(days=1)` in the source). The `0 < c` guard only rules out the
non-terminating chunk-zero loop, which the source never runs. -/
def splitRange (s e c : Nat) : List (Nat × Nat) :=
  if h : s < e ∧ 0 < c then (s, min (s + c) e) :: splitRange (min (s + c) e) e c
  else []
termination_by e - s
decreasing_by simp only [Nat.min_def]; split <;> omega

/-- The row-selection predicate of the KQL query built for one sub-window
(main2.py lines 58-64): `dateTimeGenerated >= datetime(start) and
dateTimeGenerated <= datetime(end)` — inclusive at both endpoints. -/
def inQueryWindow (w : Nat × Nat) (t : Nat) : Bool :=
  decide (w.1 ≤ t) && decide (t ≤ w.2)

/-- One backend-native row of a query result table. -/
structure KustoRow where
  ts : DateTime
  site : String
  data : List TagReading
deriving DecidableEq

/-- The per-window normalization (main2.py lines 69-72): the timestamp
column is rewritten to the canonical UTC text and the `data` column is
`json.dumps`ed (so it always reparses). -/
def normalizeRow (r : KustoRow) : RawRow :=
  { dateTimeGenerated := fmtZ r.ts, site := r.site, data := .good r.data }

/-- The try/except fetch loop of main2.py `get_query_results` (lines 65-76)
over a precomputed window list: a successful window contributes its
normalized rows in order (an empty table contributes nothing); a raising
window contributes no rows and one log entry
`(window start, error message)`, mirroring
`print(f"Error fetching data for {current_start}: {e}")`. -/
def fetchLoop (backend : Nat × Nat → Except String (List KustoRow)) :
    List (Nat × Nat) → List RawRow × List (Nat × String)
  | [] => ([], [])
  | w :: ws =>
    let rest := fetchLoop backend ws
    match backend w with
    | .ok rows => (rows.map normalizeRow ++ rest.1, rest.2)
    | .error e => (rest.1, (w.1, e) :: rest.2)

/-- main2.py `get_query_results` (lines 42-79): split the range, fetch each
sub-window, concatenate the surviving results. -/
def get_query_results (backend : Nat × Nat → Except String (List KustoRow))
    (s e c : Nat) : List RawRow × List (Nat × String) :=
  fetchLoop backend (splitRange s e c)

/-- The whole extraction-and-flattening pipeline of main2.py: fetch, then
flatten the combined rows. The result carries (flat rows, flatten log,
fetch log). -/
def runPipeline (backend : Nat × Nat → Except String (List KustoRow))
    (s e c offUs : Nat) (allowed : List String) :
    Except String (List FlatRow × List String × List (Nat × String)) :=
  let fetched := get_query_results backend s e c
  (flattenAll allowed offUs fetched.1).map (fun p => (p.1, p.2, fetched.2))

/-- The rows a window contributes to the combined result (its table on
success, nothing on error). -/
def windowRows (backend : Nat × Nat → Except String (List KustoRow))
    (w : Nat × Nat) : List KustoRow :=
  match backend w with
  | .ok rows => rows
  | .error _ => []

/-- Strict lexicographic order on (window index, row index, reading index). -/
def lexLt (a b : Nat × Nat × Nat) : Prop :=
  a.1 < b.1 ∨ (a.1 = b.1 ∧ (a.2.1 < b.2.1 ∨ (a.2.1 = b.2.1 ∧ a.2.2 < b.2.2)))

/-- The pipeline output with every flat row tagged by its source coordinates
(window index, row index within the window, reading index within the row);
each stage mirrors the corresponding comprehension of the program. -/
def taggedPipeline (backend : Nat × Nat → Except String (List KustoRow))
    (ws : List (Nat × Nat)) (offUs : Nat) (allowed : List String) :
    List ((Nat × Nat × Nat) × FlatRow) :=
  ws.enum.flatMap fun wi =>
    (windowRows backend wi.2).enum.flatMap fun ri =>
      (ri.2.data.enum.filter fun ii => passesFilter allowed ii.2).map fun ii =>
        ((wi.1, ri.1, ii.1), mkFlatRow (dtAddMicros ri.2.ts offUs) ri.2.site ii.2)

/-- A backend for witnesses: raises exactly on the window starting at 1. -/
def demoBackend : Nat × Nat → Except String (List KustoRow) :=
  fun w => if w.1 = 1 then .error "boom" else .ok []

/-- A backend for witnesses: succeeds on every window with one fixed row. -/
def demoBackend2 : Nat × Nat → Except String (List KustoRow) :=
  fun _ => .ok [⟨⟨2025, 1, 26, 0, 0, 0, 0⟩, "quill-city-mall",
    [⟨none, some "saved-energy", some "kWh", some (.num 5)⟩]⟩]

/-! ## Lemmas about the tag filter -/

theorem leadsWith_iff (n : List Char) : ∀ h, leadsWith n h = true ↔ ∃ t, h = n ++ t := by
  induction n with
  | nil => intro h; simp [leadsWith]
  | cons a as ih =>
    intro h
    match h with
    | [] => simp [leadsWith]
    | b :: bs =>
      simp only [leadsWith, Bool.and_eq_true, beq_iff_eq, ih bs]
      constructor
      · rintro ⟨rfl, t, rfl⟩; exact ⟨t, rfl⟩
      · rintro ⟨t, ht⟩; cases ht; exact ⟨rfl, t, rfl⟩

theorem hasSub_iff (n : List Char) : ∀ h, hasSub n h = true ↔ SubstrOf n h := by
  intro h
  induction h with
  | nil =>
    simp only [hasSub, List.isEmpty_iff, SubstrOf]
    constructor
    · rintro rfl; exact ⟨[], [], rfl⟩
    · rintro ⟨p, q, hpq⟩
      exact (List.append_eq_nil.mp (List.append_eq_nil.mp hpq.symm).1).2
  | cons c cs ih =>
    simp only [hasSub, Bool.or_eq_true, leadsWith_iff, ih, SubstrOf]
    constructor
    · rintro (⟨t, ht⟩ | ⟨p, q, rfl⟩)
      · exact ⟨[], t, by simp [ht]⟩
      · exact ⟨c :: p, q, rfl⟩
    · rintro ⟨p, q, hpq⟩
      match p with
      | [] => exact Or.inl ⟨q, by simpa using hpq⟩
      | p0 :: ps =>
        right
        refine ⟨ps, q, ?_⟩
        have := hpq
        simp only [List.cons_append] at this
        exact (List.cons.injEq _ _ _ _ ▸ this).2

theorem matchesTag_iff (t : String) (P : List String) :
    matchesTag t P = true ↔ "*" ∈ P ∨ ∃ p ∈ P, SubstrOf (lowerStr p) (lowerStr t) := by
  simp only [matchesTag, Bool.or_eq_true, List.any_eq_true, hasSub_iff]
  constructor
  · rintro (hc | ⟨p, hp, hs⟩)
    · left
      simpa [List.contains] using List.elem_iff.mp hc
    · exact Or.inr ⟨p, hp, hs⟩
  · rintro (hm | ⟨p, hp, hs⟩)
    · exact Or.inl (by simpa [List.contains] using List.elem_iff.mpr hm)
    · exact Or.inr ⟨p, hp, hs⟩

/-- C5: the tag filter is the total, deterministic predicate
`matches(tagName, patterns) = ("*" ∈ patterns) ∨ (∃ p ∈ patterns,
lower(p) a substring of lower(tagName))`, and in particular
`matches("Temperature_01", ["temp"])` is true, `matches("Humidity",
["temp"])` is false, and `matches(anything, ["*"])` is always true.
(Totality and determinism are inherent: `matchesTag` is a Lean function
into `Bool`.) -/
theorem tagFilter_matches_spec :
    (∀ (t : String) (P : List String),
        matchesTag t P = true ↔ "*" ∈ P ∨ ∃ p ∈ P, SubstrOf (lowerStr p) (lowerStr t))
    ∧ matchesTag "Temperature_01" ["temp"] = true
    ∧ matchesTag "Humidity" ["temp"] = false
    ∧ (∀ t : String, matchesTag t ["*"] = true) := by
  refine ⟨matchesTag_iff, by decide, by decide, ?_⟩
  intro t
  simp [matchesTag, List.contains]

/-- C9: a pattern set containing the empty string matches every tag name,
behaving exactly like the `"*"` sentinel. -/
theorem tagFilter_empty_pattern_matches_all (t : String) (P : List String)
    (h : "" ∈ P) : matchesTag t P = true ∧ matchesTag t P = matchesTag t ["*"] := by
  have hstar : matchesTag t ["*"] = true := by simp [matchesTag, List.contains]
  have hmatch : matchesTag t P = true := by
    apply (matchesTag_iff t P).mpr
    refine Or.inr ⟨"", h, [], lowerStr t, ?_⟩
    simp [lowerStr]
  exact ⟨hmatch, hmatch.trans hstar.symm⟩

/-- C9 witness. -/
theorem tagFilter_empty_pattern_matches_all_witness :
    ("" ∈ [""]) ∧ (matchesTag "Humidity" [""] = true ∧
      matchesTag "Humidity" [""] = matchesTag "Humidity" ["*"]) :=
  ⟨by decide, tagFilter_empty_pattern_matches_all "Humidity" [""] (by decide)⟩

/-- C10: the tag filter is monotone in the pattern set: enlarging the
allow-list never turns a match into a non-match. -/
theorem tagFilter_monotone (t : String) (P Q : List String) (hsub : P ⊆ Q)
    (h : matchesTag t P = true) : matchesTag t Q = true := by
  apply (matchesTag_iff t Q).mpr
  rcases (matchesTag_iff t P).mp h with hm | ⟨p, hp, hs⟩
  · exact Or.inl (hsub hm)
  · exact Or.inr ⟨p, hsub hp, hs⟩

/-- C10 witness. -/
theorem tagFilter_monotone_witness :
    (["temp"] ⊆ ["temp", "humid"]) ∧ (matchesTag "Temperature_01" ["temp"] = true) ∧
      matchesTag "Temperature_01" ["temp", "humid"] = true :=
  ⟨by decide, by decide, tagFilter_monotone "Temperature_01" ["temp"] ["temp", "humid"]
    (by decide) (by decide)⟩

/-! ## Lemmas about the window splitter -/

theorem splitRange_nil (s e c : Nat) (h : ¬(s < e ∧ 0 < c)) : splitRange s e c = [] := by
  rw [splitRange]; simp [h]

theorem splitRange_mem (s e c : Nat) :
    ∀ w ∈ splitRange s e c, s ≤ w.1 ∧ w.1 < w.2 ∧ w.2 ≤ e := by
  induction s, e, c using splitRange.induct with
  | case1 s e c h ih =>
    rw [splitRange]
    simp only [dif_pos h]
    intro w hw
    rcases List.mem_cons.mp hw with rfl | hw'
    · simp only []
      omega
    · have := ih w hw'
      omega
  | case2 s e c h =>
    rw [splitRange]
    simp [h]

theorem splitRange_head (s e c : Nat) (hs : s < e) (hc : 0 < c) :
    (splitRange s e c).head? = some (s, min (s + c) e) := by
  rw [splitRange]; simp [hs, hc]

theorem splitRange_getLast (s e c : Nat) :
    s < e → 0 < c → (splitRange s e c).getLast?.map Prod.snd = some e := by
  induction s, e, c using splitRange.induct with
  | case1 s e c h ih =>
    intro hs hc
    rw [splitRange]; simp only [dif_pos h]
    by_cases hm : min (s + c) e < e
    · have htail := ih hm hc
      rcases h' : splitRange (min (s + c) e) e c with _ | ⟨b, bs⟩
      · rw [h'] at htail; simp at htail
      · rw [List.getLast?_cons_cons]
        rw [h'] at htail
        exact htail
    · have hme : min (s + c) e = e := by omega
      rw [hme, splitRange_nil e e c (by omega)]
      simp
  | case2 s e c h =>
    intro hs hc
    exact absurd ⟨hs, hc⟩ h

theorem splitRange_chain (s e c : Nat) :
    List.Chain' (fun a b => a.2 = b.1) (splitRange s e c) := by
  induction s, e, c using splitRange.induct with
  | case1 s e c h ih =>
    rw [splitRange]; simp only [dif_pos h]
    rw [List.chain'_cons']
    refine ⟨?_, ih⟩
    intro b hb
    by_cases hm : min (s + c) e < e ∧ 0 < c
    · rw [splitRange] at hb
      simp only [dif_pos hm, List.head?_cons, Option.mem_def, Option.some.injEq] at hb
      rw [← hb]
    · rw [splitRange_nil _ _ _ hm] at hb
      simp at hb
  | case2 s e c h =>
    rw [splitRange_nil s e c h]
    exact List.chain'_nil

theorem splitRange_pairwise (s e c : Nat) :
    List.Pairwise (fun a b => a.2 ≤ b.1) (splitRange s e c) := by
  induction s, e, c using splitRange.induct with
  | case1 s e c h ih =>
    rw [splitRange]; simp only [dif_pos h]
    refine List.pairwise_cons.mpr ⟨?_, ih⟩
    intro b hb
    have := splitRange_mem _ _ _ b hb
    simp only []
    omega
  | case2 s e c h =>
    rw [splitRange_nil s e c h]
    exact List.Pairwise.nil

theorem splitRange_pairwise_lt (s e c : Nat) :
    List.Pairwise (fun a b => a.1 < b.1) (splitRange s e c) := by
  induction s, e, c using splitRange.induct with
  | case1 s e c h ih =>
    rw [splitRange]; simp only [dif_pos h]
    refine List.pairwise_cons.mpr ⟨?_, ih⟩
    intro b hb
    have := splitRange_mem _ _ _ b hb
    simp only []
    omega
  | case2 s e c h =>
    rw [splitRange_nil s e c h]
    exact List.Pairwise.nil

theorem splitRange_coverage (s e c : Nat) :
    0 < c → ∀ t, ((∃ w ∈ splitRange s e c, w.1 ≤ t ∧ t < w.2) ↔ (s ≤ t ∧ t < e)) := by
  induction s, e, c using splitRange.induct with
  | case1 s e c h ih =>
    intro hc t
    rw [splitRange]; simp only [dif_pos h]
    constructor
    · rintro ⟨w, hw, hwt⟩
      rcases List.mem_cons.mp hw with rfl | hw'
      · simp only [] at hwt
        omega
      · have hb := splitRange_mem _ _ _ w hw'
        omega
    · rintro ⟨hst, hte⟩
      by_cases hlt : t < min (s + c) e
      · exact ⟨(s, min (s + c) e), List.mem_cons_self _ _, by simp only []; omega⟩
      · have := (ih hc t).mpr (by omega)
        rcases this with ⟨w, hw, hwt⟩
        exact ⟨w, List.mem_cons_of_mem _ hw, hwt⟩
  | case2 s e c h =>
    intro hc t
    rw [splitRange_nil s e c h]
    simp only [List.not_mem_nil]
    constructor
    · rintro ⟨w, hw, -⟩; exact absurd hw (by simp)
    · intro ht; omega

theorem splitRange_length (s e c : Nat) :
    0 < c → (splitRange s e c).length = (e - s + c - 1) / c := by
  induction s, e, c using splitRange.induct with
  | case1 s e c h ih =>
    intro hc
    rw [splitRange]; simp only [dif_pos h, List.length_cons]
    rw [ih hc]
    by_cases hce : e ≤ s + c
    · have hme : min (s + c) e = e := by omega
      rw [hme]
      have h0 : (e - e + c - 1) / c = 0 := Nat.div_eq_of_lt (by omega)
      rw [h0]
      have : (e - s + c - 1) / c = 1 :=
        Nat.div_eq_of_lt_le (by omega) (by omega)
      omega
    · have hme : min (s + c) e = s + c := by omega
      rw [hme]
      have harith : e - s + c - 1 = (e - (s + c) + c - 1) + c := by omega
      rw [harith, Nat.add_div_right _ hc]
  | case2 s e c h =>
    intro hc
    rw [splitRange_nil s e c h]
    have he : e ≤ s := by omega
    simp only [List.length_nil]
    have : e - s = 0 := by omega
    rw [this]
    exact (Nat.div_eq_of_lt (by omega)).symm

theorem splitRange_single (s e c : Nat) (hs : s < e) (he : e ≤ s + c) :
    splitRange s e c = [(s, e)] := by
  have hc : 0 < c := by omega
  have hme : min (s + c) e = e := by omega
  rw [splitRange]
  simp only [dif_pos (And.intro hs hc), hme, splitRange_nil e e c (by omega)]

/-- C3: for `start < end` and a positive chunk, the splitting loop yields a
finite window list that is nonempty, begins at `start`, ends at `end`, is
contiguous (each window's end is the next window's start), non-overlapping
and ascending, stays inside the range with nonempty windows, covers exactly
the half-open interval `[start, end)`, has exactly `ceil((end-start)/chunk)`
windows, and collapses to the single window `(start, end)` when the range
is no longer than the chunk. -/
theorem timeWindowSplitter_spec (s e c : Nat) (hs : s < e) (hc : 0 < c) :
    splitRange s e c ≠ []
    ∧ (splitRange s e c).head?.map Prod.fst = some s
    ∧ (splitRange s e c).getLast?.map Prod.snd = some e
    ∧ List.Chain' (fun a b => a.2 = b.1) (splitRange s e c)
    ∧ List.Pairwise (fun a b => a.2 ≤ b.1) (splitRange s e c)
    ∧ List.Pairwise (fun a b => a.1 < b.1) (splitRange s e c)
    ∧ (∀ w ∈ splitRange s e c, s ≤ w.1 ∧ w.1 < w.2 ∧ w.2 ≤ e)
    ∧ (∀ t, (∃ w ∈ splitRange s e c, w.1 ≤ t ∧ t < w.2) ↔ (s ≤ t ∧ t < e))
    ∧ (splitRange s e c).length = (e - s + c - 1) / c
    ∧ (e ≤ s + c → splitRange s e c = [(s, e)]) := by
  refine ⟨?_, ?_, splitRange_getLast s e c hs hc, splitRange_chain s e c,
    splitRange_pairwise s e c, splitRange_pairwise_lt s e c, splitRange_mem s e c,
    splitRange_coverage s e c hc, splitRange_length s e c hc,
    fun he => splitRange_single s e c hs he⟩
  · rw [splitRange]
    simp [hs, hc]
  · rw [splitRange_head s e c hs hc]
    rfl

/-- C3 witness at the spec's own scenario scaled down: range `[0, 2)` with
chunk 1. -/
theorem timeWindowSplitter_spec_witness :
    ((0 : Nat) < 2 ∧ (0 : Nat) < 1) ∧ (splitRange 0 2 1).length = (2 - 0 + 1 - 1) / 1 :=
  ⟨⟨by decide, by decide⟩, (timeWindowSplitter_spec 0 2 1 (by decide) (by decide)).2.2.2.2.2.2.2.2.1⟩

/-! ## The inclusive query bounds and window boundaries (C1) -/

theorem countP_inQueryWindow (s e c : Nat) :
    0 < c → ∀ t, (splitRange s e c).countP (fun w => inQueryWindow w t) =
      (if s ≤ t ∧ t < e then 1 else 0) +
        (if ∃ w ∈ splitRange s e c, w.2 = t then 1 else 0) := by
  induction s, e, c using splitRange.induct with
  | case1 s e c h ih =>
    intro hc t
    have hsm : s < min (s + c) e := by omega
    have hme : min (s + c) e ≤ e := by omega
    have hmem : ∀ w ∈ splitRange (min (s + c) e) e c, min (s + c) e ≤ w.1 ∧ w.1 < w.2 :=
      fun w hw => by have := splitRange_mem _ _ _ w hw; omega
    rw [splitRange]; simp only [dif_pos h]
    rw [List.countP_cons, ih hc t]
    have hsplitex : (∃ w ∈ (s, min (s + c) e) :: splitRange (min (s + c) e) e c, w.2 = t)
        ↔ (t = min (s + c) e ∨ ∃ w ∈ splitRange (min (s + c) e) e c, w.2 = t) := by
      simp only [List.mem_cons]
      constructor
      · rintro ⟨w, rfl | hw, hwt⟩
        · exact Or.inl hwt.symm
        · exact Or.inr ⟨w, hw, hwt⟩
      · rintro (rfl | ⟨w, hw, hwt⟩)
        · exact ⟨(s, min (s + c) e), Or.inl rfl, rfl⟩
        · exact ⟨w, Or.inr hw, hwt⟩
    rw [if_congr hsplitex rfl rfl]
    have hq : (inQueryWindow (s, min (s + c) e) t = true) ↔ (s ≤ t ∧ t ≤ min (s + c) e) := by
      simp [inQueryWindow]
    by_cases h1 : t < s
    · have e1 : inQueryWindow (s, min (s + c) e) t = false := by
        simp [inQueryWindow]; omega
      have e2 : ¬∃ w ∈ splitRange (min (s + c) e) e c, w.2 = t := by
        rintro ⟨w, hw, hwt⟩; have := hmem w hw; omega
      have hdisj : ¬(t = min (s + c) e ∨ ∃ w ∈ splitRange (min (s + c) e) e c, w.2 = t) := by
        rintro (h' | h')
        · omega
        · exact e2 h'
      rw [e1, if_neg e2, if_neg (by omega : ¬(min (s + c) e ≤ t ∧ t < e)),
        if_neg (by omega : ¬(s ≤ t ∧ t < e)), if_neg hdisj]
      simp
    · by_cases h2 : t < min (s + c) e
      · have e1 : inQueryWindow (s, min (s + c) e) t = true := by
          simp [inQueryWindow]; omega
        have e2 : ¬∃ w ∈ splitRange (min (s + c) e) e c, w.2 = t := by
          rintro ⟨w, hw, hwt⟩; have := hmem w hw; omega
        have hdisj : ¬(t = min (s + c) e ∨ ∃ w ∈ splitRange (min (s + c) e) e c, w.2 = t) := by
          rintro (h' | h')
          · omega
          · exact e2 h'
        rw [e1, if_neg e2, if_neg (by omega : ¬(min (s + c) e ≤ t ∧ t < e)),
          if_pos (by omega : s ≤ t ∧ t < e), if_neg hdisj]
        simp
      · by_cases h3 : t = min (s + c) e
        · have e1 : inQueryWindow (s, min (s + c) e) t = true := by
            simp [inQueryWindow]; omega
          have e2 : ¬∃ w ∈ splitRange (min (s + c) e) e c, w.2 = t := by
            rintro ⟨w, hw, hwt⟩; have := hmem w hw; omega
          rw [e1, if_neg e2,
            if_pos (show t = min (s + c) e ∨
              ∃ w ∈ splitRange (min (s + c) e) e c, w.2 = t from Or.inl h3)]
          by_cases h4 : min (s + c) e < e
          · rw [if_pos (by omega : min (s + c) e ≤ t ∧ t < e),
              if_pos (by omega : s ≤ t ∧ t < e)]
            simp
          · rw [if_neg (by omega : ¬(min (s + c) e ≤ t ∧ t < e)),
              if_neg (by omega : ¬(s ≤ t ∧ t < e))]
            simp
        · have e1 : inQueryWindow (s, min (s + c) e) t = false := by
            simp [inQueryWindow]; omega
          rw [e1, if_congr (or_iff_right h3) rfl rfl,
            if_congr (Iff.intro (fun hyp => (by omega : s ≤ t ∧ t < e))
              (fun hyp => (by omega : min (s + c) e ≤ t ∧ t < e))) rfl rfl]
          simp
  | case2 s e c h =>
    intro hc t
    rw [splitRange_nil s e c h]
    have he : e ≤ s := by omega
    simp only [List.countP_nil, List.not_mem_nil]
    rw [if_neg (by omega : ¬(s ≤ t ∧ t < e)), if_neg (by rintro ⟨w, hw, -⟩; simp at hw)]

/-- C1 counterexample: with range `[0, 2)` and chunk 1, the loop produces the
two sub-windows `(0, 1)` and `(1, 2)`, and the inclusive query predicate of
both windows selects the timestamp 1 — so a timestamp can be returned by two
different sub-windows, contrary to the claim. -/
theorem queryWindow_duplicate_counterexample :
    splitRange 0 2 1 = [(0, 1), (1, 2)] ∧ ((0, 1) : Nat × Nat) ≠ (1, 2) ∧
      inQueryWindow (0, 1) 1 = true ∧ inQueryWindow (1, 2) 1 = true := by
  refine ⟨?_, by decide, by decide, by decide⟩
  rw [splitRange]; norm_num
  rw [splitRange]; norm_num
  rw [splitRange]; norm_num

/-- C1 amended: the backend query of each sub-window is inclusive at both
endpoints, so a timestamp equal to an interior sub-window boundary is
selected by exactly two sub-windows (and, with no deduplication, such a row
appears twice in the concatenation), while a timestamp that is no window's
end is selected by at most one sub-window. -/
theorem queryWindow_boundary_overlap (s e c : Nat) (hs : s < e) (hc : 0 < c) (t : Nat) :
    ((∃ w ∈ splitRange s e c, w.2 = t ∧ t ≠ e) →
      (splitRange s e c).countP (fun w => inQueryWindow w t) = 2)
    ∧ ((∀ w ∈ splitRange s e c, w.2 ≠ t) →
      (splitRange s e c).countP (fun w => inQueryWindow w t) ≤ 1) := by
  constructor
  · rintro ⟨w, hw, hw2, hne⟩
    have hb := splitRange_mem s e c w hw
    rw [countP_inQueryWindow s e c hc t]
    rw [if_pos (by omega : s ≤ t ∧ t < e), if_pos ⟨w, hw, hw2⟩]
  · intro hnone
    rw [countP_inQueryWindow s e c hc t]
    have hne : ¬∃ w ∈ splitRange s e c, w.2 = t := by
      rintro ⟨w, hw, hw2⟩; exact hnone w hw hw2
    rw [if_neg hne]
    split_ifs <;> omega

theorem splitRange_0_2_1 : splitRange 0 2 1 = [(0, 1), (1, 2)] := by
  rw [splitRange]; norm_num
  rw [splitRange]; norm_num
  rw [splitRange]; norm_num

/-- C1 amended witness: timestamp 1 sits on the boundary of the two windows
of `splitRange 0 2 1` and is counted by both queries. -/
theorem queryWindow_boundary_overlap_witness :
    ((0 : Nat) < 2 ∧ (0 : Nat) < 1) ∧
      (splitRange 0 2 1).countP (fun w => inQueryWindow w 1) = 2 :=
  ⟨⟨by decide, by decide⟩,
    (queryWindow_boundary_overlap 0 2 1 (by decide) (by decide) 1).1
      ⟨(0, 1), by rw [splitRange_0_2_1]; exact List.mem_cons_self _ _, rfl, by decide⟩⟩

/-- C8: for an empty range (`start == end`) the splitter yields zero
sub-windows, the fetch yields zero rows and an empty error log, and the
whole pipeline returns zero flat rows without raising. -/
theorem empty_range_pipeline (backend : Nat × Nat → Except String (List KustoRow))
    (s c offUs : Nat) (allowed : List String) :
    splitRange s s c = [] ∧ get_query_results backend s s c = ([], []) ∧
      runPipeline backend s s c offUs allowed = .ok ([], [], []) := by
  have h : splitRange s s c = [] := splitRange_nil s s c (by omega)
  refine ⟨h, ?_, ?_⟩
  · simp [get_query_results, h, fetchLoop]
  · simp [runPipeline, get_query_results, h, fetchLoop, flattenAll, Except.map]

/-! ## Per-window failure tolerance (C4) -/

theorem fetchLoop_append (b : Nat × Nat → Except String (List KustoRow))
    (xs ys : List (Nat × Nat)) :
    fetchLoop b (xs ++ ys) =
      ((fetchLoop b xs).1 ++ (fetchLoop b ys).1, (fetchLoop b xs).2 ++ (fetchLoop b ys).2) := by
  induction xs with
  | nil => simp [fetchLoop]
  | cons w ws ih =>
    simp only [List.cons_append, fetchLoop, List.append_eq]
    rw [ih]
    cases b w <;> simp

theorem fetchLoop_ok_log_nil (b : Nat × Nat → Except String (List KustoRow))
    (ws : List (Nat × Nat)) (h : ∀ w ∈ ws, ∃ rows, b w = .ok rows) :
    (fetchLoop b ws).2 = [] := by
  induction ws with
  | nil => simp [fetchLoop]
  | cons w ws ih =>
    obtain ⟨rows, hrows⟩ := h w (List.mem_cons_self w ws)
    simp only [fetchLoop, hrows]
    exact ih (fun w' hw' => h w' (List.mem_cons_of_mem w hw'))

/-- C4: if the backend raises on one sub-window and succeeds on all others,
the fetch does not abort: the failing window is skipped, the combined
result is the concatenation, in window order, of all the other windows'
results, and the error is logged exactly once, keyed by the failing
window's start bound (the loop prints
`f"Error fetching data for {current_start}: {e}"`). -/
theorem windowFailure_resilience (b : Nat × Nat → Except String (List KustoRow))
    (ws1 ws2 : List (Nat × Nat)) (w : Nat × Nat) (e : String)
    (hw : b w = .error e) (hok : ∀ w' ∈ ws1 ++ ws2, ∃ rows, b w' = .ok rows) :
    (fetchLoop b (ws1 ++ w :: ws2)).1 = (fetchLoop b ws1).1 ++ (fetchLoop b ws2).1
    ∧ (fetchLoop b (ws1 ++ w :: ws2)).1 = (fetchLoop b (ws1 ++ ws2)).1
    ∧ (fetchLoop b (ws1 ++ w :: ws2)).2 = [(w.1, e)] := by
  have hcons : fetchLoop b (w :: ws2) =
      ((fetchLoop b ws2).1, (w.1, e) :: (fetchLoop b ws2).2) := by
    simp [fetchLoop, hw]
  have h1 := fetchLoop_append b ws1 (w :: ws2)
  have h2 := fetchLoop_append b ws1 ws2
  have hl1 : (fetchLoop b ws1).2 = [] :=
    fetchLoop_ok_log_nil b ws1 (fun w' hw' => hok w' (List.mem_append_left _ hw'))
  have hl2 : (fetchLoop b ws2).2 = [] :=
    fetchLoop_ok_log_nil b ws2 (fun w' hw' => hok w' (List.mem_append_right _ hw'))
  rw [h1, hcons, h2, hl1, hl2]
  simp

/-- C4 witness: a three-window fetch where the middle window raises. -/
theorem windowFailure_resilience_witness :
    (demoBackend (1, 2) = .error "boom"
      ∧ (∀ w' ∈ [((0 : Nat), (1 : Nat))] ++ [((2 : Nat), (3 : Nat))],
          ∃ rows, demoBackend w' = .ok rows))
    ∧ ((fetchLoop demoBackend ([(0, 1)] ++ (1, 2) :: [(2, 3)])).1 =
        (fetchLoop demoBackend [(0, 1)]).1 ++ (fetchLoop demoBackend [(2, 3)]).1
      ∧ (fetchLoop demoBackend ([(0, 1)] ++ (1, 2) :: [(2, 3)])).1 =
        (fetchLoop demoBackend ([(0, 1)] ++ [(2, 3)])).1
      ∧ (fetchLoop demoBackend ([(0, 1)] ++ (1, 2) :: [(2, 3)])).2 = [(((1, 2) : Nat × Nat).1, "boom")]) := by
  have hok : ∀ w' ∈ [((0 : Nat), (1 : Nat))] ++ [((2 : Nat), (3 : Nat))],
      ∃ rows, demoBackend w' = .ok rows := by
    intro w' hw'
    fin_cases hw' <;> exact ⟨[], rfl⟩
  exact ⟨⟨rfl, hok⟩,
    windowFailure_resilience demoBackend [(0, 1)] [(2, 3)] (1, 2) "boom" rfl hok⟩

/-! ## Digit-string lemmas -/

theorem dval_digitCharOf : ∀ n, n < 10 → dval (digitCharOf n) = n := by decide

theorem isDigit_digitCharOf : ∀ n, n < 10 → (digitCharOf n).isDigit = true := by decide

theorem digitCharOf_ne_Z : ∀ n, n < 10 → (digitCharOf n == 'Z') = false := by decide

theorem padDigits_length (w : Nat) : ∀ n, (padDigits w n).length = w := by
  induction w with
  | zero => intro n; rfl
  | succ w ih => intro n; simp [padDigits, ih]

theorem padDigits_all_digits (w : Nat) :
    ∀ n, n < 10 ^ w → ∀ c ∈ padDigits w n, c.isDigit = true := by
  induction w with
  | zero => intro n hn c hc; simp [padDigits] at hc
  | succ w ih =>
    intro n hn c hc
    simp only [padDigits, List.mem_cons] at hc
    rcases hc with rfl | hc
    · exact isDigit_digitCharOf _ (Nat.div_lt_of_lt_mul (by rw [← pow_succ]; exact hn))
    · exact ih _ (Nat.mod_lt _ (Nat.pow_pos (by norm_num))) c hc

theorem padDigits_split_last (w : Nat) : ∀ n, n < 10 ^ (w + 1) →
    padDigits (w + 1) n = padDigits w (n / 10) ++ [digitCharOf (n % 10)] := by
  induction w with
  | zero =>
    intro n hn
    have h0 : n % 10 = n := Nat.mod_eq_of_lt (by simpa using hn)
    simp [padDigits, h0]
  | succ w ih =>
    intro n hn
    have e1 : n / 10 ^ (w + 1) = n / 10 / 10 ^ w := by
      rw [Nat.div_div_eq_div_mul]
      congr 1
      ring
    have e2 : n % 10 ^ (w + 1) % 10 = n % 10 :=
      Nat.mod_mod_of_dvd n (dvd_pow_self 10 (Nat.succ_ne_zero w))
    have e3 : n % 10 ^ (w + 1) / 10 = n / 10 % 10 ^ w := by
      have h10 : (10 : Nat) ^ (w + 1) = 10 * 10 ^ w := by ring
      rw [h10, Nat.mod_mul_right_div_self]
    have hlt : n % 10 ^ (w + 1) < 10 ^ (w + 1) := Nat.mod_lt _ (Nat.pow_pos (by norm_num))
    calc padDigits (w + 2) n
        = digitCharOf (n / 10 ^ (w + 1)) :: padDigits (w + 1) (n % 10 ^ (w + 1)) := rfl
      _ = digitCharOf (n / 10 ^ (w + 1)) ::
            (padDigits w (n % 10 ^ (w + 1) / 10) ++ [digitCharOf (n % 10 ^ (w + 1) % 10)]) := by
          rw [ih _ hlt]
      _ = digitCharOf (n / 10 / 10 ^ w) ::
            (padDigits w (n / 10 % 10 ^ w) ++ [digitCharOf (n % 10)]) := by
          rw [e1, e2, e3]
      _ = padDigits (w + 1) (n / 10) ++ [digitCharOf (n % 10)] := by
          simp [padDigits]

theorem takeDigitsFix_pad (w : Nat) : ∀ acc n rest, n < 10 ^ w →
    takeDigitsFix w acc (padDigits w n ++ rest) = some (acc * 10 ^ w + n, rest) := by
  induction w with
  | zero =>
    intro acc n rest hn
    have : n = 0 := by omega
    subst this
    simp [padDigits, takeDigitsFix]
  | succ w ih =>
    intro acc n rest hn
    have hd : n / 10 ^ w < 10 := Nat.div_lt_of_lt_mul (by rw [← pow_succ]; exact hn)
    simp only [padDigits, List.cons_append, takeDigitsFix, List.append_eq]
    rw [if_pos (isDigit_digitCharOf _ hd), dval_digitCharOf _ hd]
    rw [ih _ _ _ (Nat.mod_lt _ (Nat.pow_pos (by norm_num)))]
    have hsub : n = 10 ^ w * (n / 10 ^ w) + n % 10 ^ w := (Nat.div_add_mod n (10 ^ w)).symm
    have harith : (acc * 10 + n / 10 ^ w) * 10 ^ w + n % 10 ^ w = acc * 10 ^ (w + 1) + n := by
      calc (acc * 10 + n / 10 ^ w) * 10 ^ w + n % 10 ^ w
          = acc * (10 ^ w * 10) + (10 ^ w * (n / 10 ^ w) + n % 10 ^ w) := by ring
        _ = acc * (10 ^ w * 10) + n := by rw [← hsub]
        _ = acc * 10 ^ (w + 1) + n := by ring
    rw [harith]

theorem takeD12_pad (n : Nat) (hn : n < 100) (rest : List Char) :
    takeD12 (padDigits 2 n ++ rest) = some (n, rest) := by
  have h1 : padDigits 2 n = [digitCharOf (n / 10), digitCharOf (n % 10)] := by
    simp [padDigits]
  rw [h1]
  have hd1 : (digitCharOf (n / 10)).isDigit = true := isDigit_digitCharOf _ (by omega)
  have hd2 : (digitCharOf (n % 10)).isDigit = true := isDigit_digitCharOf _ (by omega)
  simp only [List.cons_append, List.nil_append, takeD12, hd1, hd2, if_true]
  rw [dval_digitCharOf _ (by omega), dval_digitCharOf _ (by omega)]
  have : n / 10 * 10 + n % 10 = n := by omega
  rw [this]

theorem takeWhile_digits (l rest : List Char) (hl : ∀ c ∈ l, c.isDigit = true)
    (hr : ∀ c, rest.head? = some c → c.isDigit = false) :
    (l ++ rest).takeWhile Char.isDigit = l ∧ (l ++ rest).dropWhile Char.isDigit = rest := by
  induction l with
  | nil =>
    cases rest with
    | nil => exact ⟨rfl, rfl⟩
    | cons c cs =>
      have := hr c rfl
      simp [List.takeWhile_cons, List.dropWhile_cons, this]
  | cons a l ih =>
    have ha := hl a (List.mem_cons_self a l)
    have hrec := ih (fun c hc => hl c (List.mem_cons_of_mem a hc))
    simp [List.takeWhile_cons, List.dropWhile_cons, ha, hrec.1, hrec.2]

theorem foldl_digits (w : Nat) : ∀ n acc, n < 10 ^ w →
    (padDigits w n).foldl (fun a c => a * 10 + dval c) acc = acc * 10 ^ w + n := by
  induction w with
  | zero =>
    intro n acc hn
    have : n = 0 := by omega
    subst this
    simp [padDigits]
  | succ w ih =>
    intro n acc hn
    have hd : n / 10 ^ w < 10 := Nat.div_lt_of_lt_mul (by rw [← pow_succ]; exact hn)
    simp only [padDigits, List.foldl_cons]
    rw [dval_digitCharOf _ hd, ih _ _ (Nat.mod_lt _ (Nat.pow_pos (by norm_num)))]
    have hsub : n = 10 ^ w * (n / 10 ^ w) + n % 10 ^ w := (Nat.div_add_mod n (10 ^ w)).symm
    calc (acc * 10 + n / 10 ^ w) * 10 ^ w + n % 10 ^ w
        = acc * (10 ^ w * 10) + (10 ^ w * (n / 10 ^ w) + n % 10 ^ w) := by ring
      _ = acc * (10 ^ w * 10) + n := by rw [← hsub]
      _ = acc * 10 ^ (w + 1) + n := by ring

theorem digitsVal_pad (w n : Nat) (hn : n < 10 ^ w) : digitsVal (padDigits w n) = n := by
  have := foldl_digits w n 0 hn
  simpa [digitsVal] using this

theorem takeFrac_pad (k f : Nat) (hk1 : 1 ≤ k) (hk6 : k ≤ 6) (hf : f < 10 ^ k)
    (rest : List Char) (hr : ∀ c, rest.head? = some c → c.isDigit = false) :
    takeFrac (padDigits k f ++ rest) = some (f * 10 ^ (6 - k), rest) := by
  have hdig := padDigits_all_digits k f hf
  have htw := takeWhile_digits (padDigits k f) rest hdig hr
  simp only [takeFrac, htw.1, htw.2, padDigits_length]
  rw [if_neg (by omega), digitsVal_pad k f hf]

theorem expectCh_cons (c : Char) (cs : List Char) : expectCh c (c :: cs) = some cs := by
  simp [expectCh]

theorem parseCore_fmt (dt : DateTime) (h : ValidDT dt) (k f : Nat)
    (hk1 : 1 ≤ k) (hk6 : k ≤ 6) (hf : f < 10 ^ k) (rest : List Char)
    (hr : ∀ c, rest.head? = some c → c.isDigit = false) :
    parseCore (fmtHead dt ++ padDigits k f ++ rest) =
      some (⟨dt.year, dt.month, dt.day, dt.hour, dt.minute, dt.second,
        f * 10 ^ (6 - k)⟩, rest) := by
  obtain ⟨hy, hmo, hd, hh, hmi, hse, hus⟩ := h
  simp only [fmtHead, List.append_assoc, List.cons_append, List.nil_append]
  simp only [parseCore, Option.bind_eq_bind]
  rw [takeDigitsFix_pad 4 0 dt.year _ (by norm_num [hy] : dt.year < 10 ^ 4)]
  simp only [Option.some_bind]
  rw [expectCh_cons]
  simp only [Option.some_bind]
  rw [takeD12_pad dt.month hmo]
  simp only [Option.some_bind]
  rw [expectCh_cons]
  simp only [Option.some_bind]
  rw [takeD12_pad dt.day hd]
  simp only [Option.some_bind]
  rw [expectCh_cons]
  simp only [Option.some_bind]
  rw [takeD12_pad dt.hour hh]
  simp only [Option.some_bind]
  rw [expectCh_cons]
  simp only [Option.some_bind]
  rw [takeD12_pad dt.minute hmi]
  simp only [Option.some_bind]
  rw [expectCh_cons]
  simp only [Option.some_bind]
  rw [takeD12_pad dt.second hse]
  simp only [Option.some_bind]
  rw [expectCh_cons]
  simp only [Option.some_bind]
  rw [takeFrac_pad k f hk1 hk6 hf rest hr]
  simp only [Option.some_bind, Option.pure_def]
  norm_num

/-! ## Round trips of the canonical timestamp text (C2) -/

theorem parseZ_fmtZ (dt : DateTime) (h : ValidDT dt) : parseZ (fmtZ dt).data = some dt := by
  have hz : ∀ c, (['Z'] : List Char).head? = some c → c.isDigit = false := by
    intro c hc
    simp only [List.head?_cons, Option.some.injEq] at hc
    subst hc
    decide
  have hp := parseCore_fmt dt h 6 dt.micro (by norm_num) (by norm_num)
    (by exact_mod_cast h.2.2.2.2.2.2) ['Z'] hz
  have hcore : (fmtZ dt).data = fmtHead dt ++ padDigits 6 dt.micro ++ ['Z'] := by
    simp [fmtZ, fmtCore, List.append_assoc]
  rw [hcore]
  simp only [parseZ, hp]
  norm_num

theorem rstripZ_concat_Z (l : List Char) : rstripZ (l ++ ['Z']) = rstripZ l := by
  unfold rstripZ
  rw [List.reverse_append]
  simp [List.dropWhile_cons]

theorem rstripZ_concat_digit (l : List Char) (d : Char) (hd : (d == 'Z') = false) :
    rstripZ (l ++ [d]) = l ++ [d] := by
  unfold rstripZ
  rw [List.reverse_append]
  simp [List.dropWhile_cons, hd]

theorem mainPy_chop (dt : DateTime) (h : ValidDT dt) :
    rstripZ (((fmtZ dt).data.dropLast).dropLast ++ ['Z']) =
      fmtHead dt ++ padDigits 5 (dt.micro / 10) := by
  have hus : dt.micro < 10 ^ 6 := by exact_mod_cast h.2.2.2.2.2.2
  have hsplit : padDigits 6 dt.micro =
      padDigits 5 (dt.micro / 10) ++ [digitCharOf (dt.micro % 10)] :=
    padDigits_split_last 5 dt.micro hus
  have hdata : (fmtZ dt).data = fmtCore dt ++ ['Z'] := by simp [fmtZ]
  rw [hdata, List.dropLast_concat]
  have hcore : fmtCore dt =
      (fmtHead dt ++ padDigits 5 (dt.micro / 10)) ++ [digitCharOf (dt.micro % 10)] := by
    rw [fmtCore, hsplit, List.append_assoc]
  rw [hcore, List.dropLast_concat, rstripZ_concat_Z]
  have hd2 : dt.micro / 10 < 10 ^ 5 := by omega
  have hsplit5 : padDigits 5 (dt.micro / 10) =
      padDigits 4 (dt.micro / 10 / 10) ++ [digitCharOf (dt.micro / 10 % 10)] :=
    padDigits_split_last 4 (dt.micro / 10) hd2
  rw [hsplit5, ← List.append_assoc,
    rstripZ_concat_digit _ _ (digitCharOf_ne_Z _ (by omega)), List.append_assoc, ← hsplit5]

theorem mainPy_parse (dt : DateTime) (h : ValidDT dt) :
    parseNoZ (rstripZ (((fmtZ dt).data.dropLast).dropLast ++ ['Z'])) =
      some ⟨dt.year, dt.month, dt.day, dt.hour, dt.minute, dt.second,
        dt.micro / 10 * 10⟩ := by
  rw [mainPy_chop dt h]
  have hd2 : dt.micro / 10 < 10 ^ 5 := by
    have : dt.micro < 1000000 := h.2.2.2.2.2.2
    omega
  have hp := parseCore_fmt dt h 5 (dt.micro / 10) (by norm_num) (by norm_num) hd2 []
    (fun c hc => by simp at hc)
  rw [List.append_nil] at hp
  simp only [parseNoZ, hp]
  norm_num

theorem dtAddMicros_micro (dt : DateTime) (hm : dt.micro < 1000000) (offUs : Nat)
    (hoff : offUs % 1000000 = 0) : (dtAddMicros dt offUs).micro = dt.micro := by
  simp only [dtAddMicros, usecPerDay]
  omega

theorem flatten_data_normalized (allowed : List String) (offUs : Nat) (dt : DateTime)
    (h : ValidDT dt) (site : String) (items : List TagReading) :
    flatten_data allowed offUs ⟨fmtZ dt, site, .good items⟩ =
      .ok ((items.filter (passesFilter allowed)).map
        (mkFlatRow (dtAddMicros dt offUs) site), []) := by
  simp [flatten_data, parseZ_fmtZ dt h]

theorem flatten_data_v1_normalized (allowed : List String) (offUs : Nat) (dt : DateTime)
    (h : ValidDT dt) (site : String) (items : List TagReading) :
    flatten_data_v1 allowed offUs ⟨fmtZ dt, site, .good items⟩ =
      .ok ((items.filter (passesFilter allowed)).map
        (mkFlatRow (dtAddMicros ⟨dt.year, dt.month, dt.day, dt.hour, dt.minute,
          dt.second, dt.micro / 10 * 10⟩ offUs) site), []) := by
  simp [flatten_data_v1, mainPy_parse dt h]

/-- C2 counterexample: main.py's flattener rewrites the timestamp text with
`[:-2] + "Z"` before reparsing, which drops the last microsecond digit
(strptime `%f` zero-pads it back): the canonical row at
2025-01-26T00:00:00.123456Z flattens (at +08:00) to local time
"08:00:00.123450", not "08:00:00.123456" — the full microsecond value is
not preserved. -/
theorem microsecond_truncation_counterexample :
    flatten_data_v1 ["*"] 28800000000
        ⟨fmtZ ⟨2025, 1, 26, 0, 0, 0, 123456⟩, "quill-city-mall",
          .good [⟨none, some "saved-energy", some "kWh", some (.num 5)⟩]⟩ =
      .ok ([⟨"2025-01-26", "08:00:00.123450", "quill-city-mall", none,
        "saved-energy", some "kWh", some (.num 5)⟩], [])
    ∧ ("08:00:00.123450" : String) ≠ "08:00:00.123456" := by
  exact ⟨rfl, by decide⟩

/-- C2 amended: the fetcher normalizes each timestamp to the canonical UTC
text "%Y-%m-%dT%H:%M:%S.%fZ" with microsecond precision. main2.py's
flattener parses that exact value back, converts it to the target zone
(a whole-second offset), and derives `date`/`time` at the fixed formats
with the full microsecond value preserved. main.py's flattener, by
contrast, chops the final microsecond digit before reparsing, so its
derived time carries `micro / 10 * 10` — the claim's "preserving the full
microsecond value" holds only for main2.py. -/
theorem timestamp_normalization (dt : DateTime) (h : ValidDT dt) (offS : Nat)
    (site : String) (items : List TagReading) (allowed : List String) :
    parseZ (fmtZ dt).data = some dt
    ∧ convert_to_local_time (fmtZ dt) (offS * 1000000) =
        some (dtAddMicros dt (offS * 1000000))
    ∧ (dtAddMicros dt (offS * 1000000)).micro = dt.micro
    ∧ flatten_data allowed (offS * 1000000) ⟨fmtZ dt, site, .good items⟩ =
        .ok ((items.filter (passesFilter allowed)).map
          (mkFlatRow (dtAddMicros dt (offS * 1000000)) site), [])
    ∧ flatten_data_v1 allowed (offS * 1000000) ⟨fmtZ dt, site, .good items⟩ =
        .ok ((items.filter (passesFilter allowed)).map
          (mkFlatRow (dtAddMicros ⟨dt.year, dt.month, dt.day, dt.hour, dt.minute,
            dt.second, dt.micro / 10 * 10⟩ (offS * 1000000)) site), [])
    ∧ (dtAddMicros ⟨dt.year, dt.month, dt.day, dt.hour, dt.minute, dt.second,
        dt.micro / 10 * 10⟩ (offS * 1000000)).micro = dt.micro / 10 * 10 := by
  have hm : dt.micro < 1000000 := h.2.2.2.2.2.2
  refine ⟨parseZ_fmtZ dt h, ?_,
    dtAddMicros_micro dt hm _ (by omega),
    flatten_data_normalized allowed _ dt h site items,
    flatten_data_v1_normalized allowed _ dt h site items,
    dtAddMicros_micro _ (by simp only []; omega) _ (by omega)⟩
  simp [convert_to_local_time, parseZ_fmtZ dt h]

/-- C2 amended witness at the counterexample's timestamp. -/
theorem timestamp_normalization_witness :
    ValidDT ⟨2025, 1, 26, 0, 0, 0, 123456⟩ ∧
      (dtAddMicros ⟨2025, 1, 26, 0, 0, 0, 123456⟩ (8 * 1000000)).micro = 123456 :=
  ⟨by decide,
    (timestamp_normalization ⟨2025, 1, 26, 0, 0, 0, 123456⟩ (by decide) 8
      "quill-city-mall" [] ["*"]).2.2.1⟩

/-! ## Malformed-row tolerance (C6) -/

theorem flattenAll_cons (allowed : List String) (offUs : Nat) (r : RawRow)
    (rs : List RawRow) :
    flattenAll allowed offUs (r :: rs) =
      match flatten_data allowed offUs r with
      | .error e => .error e
      | .ok p =>
        match flattenAll allowed offUs rs with
        | .error e => .error e
        | .ok ps => .ok (p.1 ++ ps.1, p.2 ++ ps.2) := by
  cases hr : flatten_data allowed offUs r <;>
    cases hrs : flattenAll allowed offUs rs <;>
      simp [flattenAll, hr, hrs, Bind.bind, Except.bind, Pure.pure, Except.pure]

theorem flattenAll_append (allowed : List String) (offUs : Nat) (xs ys : List RawRow)
    (px : List FlatRow × List String) (hx : flattenAll allowed offUs xs = .ok px) :
    flattenAll allowed offUs (xs ++ ys) =
      (flattenAll allowed offUs ys).map (fun py => (px.1 ++ py.1, px.2 ++ py.2)) := by
  induction xs generalizing px with
  | nil =>
    have : px = ([], []) := by
      simp only [flattenAll] at hx
      injection hx with h
      exact h.symm
    subst this
    simp only [List.nil_append]
    cases hys : flattenAll allowed offUs ys <;> simp [Except.map]
  | cons r rs ih =>
    rw [flattenAll_cons] at hx
    cases hr : flatten_data allowed offUs r with
    | error e => rw [hr] at hx; exact absurd hx (by simp)
    | ok p =>
      rw [hr] at hx
      cases hrs : flattenAll allowed offUs rs with
      | error e => rw [hrs] at hx; exact absurd hx (by simp)
      | ok q =>
        rw [hrs] at hx
        have hpx : px = (p.1 ++ q.1, p.2 ++ q.2) := by
          injection hx with h; exact h.symm
        subst hpx
        rw [List.cons_append, flattenAll_cons, hr, ih q hrs]
        cases hys : flattenAll allowed offUs ys <;> simp [Except.map, List.append_assoc]

/-- C6: a row whose `data` payload is not valid JSON contributes zero flat
rows, its parse error is logged, and all other rows are flattened exactly
as they would be without it — one malformed row never aborts the whole
flatten. (The surrounding rows' results are given by hypotheses; the
timestamp text of the malformed row must itself parse, since a bad
timestamp would raise a `ValueError` that the row-level handler of
`flatten_data` does not catch.) -/
theorem malformed_row_tolerance (allowed : List String) (offUs : Nat)
    (pre post : List RawRow) (bad : RawRow) (dt : DateTime)
    (hts : parseZ bad.dateTimeGenerated.data = some dt) (raw : String)
    (hdata : bad.data = .bad raw) (f1 f2 : List FlatRow) (l1 l2 : List String)
    (h1 : flattenAll allowed offUs pre = .ok (f1, l1))
    (h2 : flattenAll allowed offUs post = .ok (f2, l2)) :
    flattenAll allowed offUs (pre ++ bad :: post) =
      .ok (f1 ++ f2, l1 ++ ("Error processing row: " ++ raw) :: l2) := by
  have hbad : flatten_data allowed offUs bad =
      .ok ([], ["Error processing row: " ++ raw]) := by
    simp [flatten_data, hts, hdata]
  rw [flattenAll_append allowed offUs pre (bad :: post) (f1, l1) h1,
    flattenAll_cons, hbad, h2]
  simp [Except.map]

/-- C6 witness: one malformed row between no rows and one good row. -/
theorem malformed_row_tolerance_witness :
    (parseZ (RawRow.mk (fmtZ ⟨2025, 1, 26, 0, 0, 0, 0⟩) "quill-city-mall"
        (.bad "not json")).dateTimeGenerated.data = some ⟨2025, 1, 26, 0, 0, 0, 0⟩
      ∧ (RawRow.mk (fmtZ ⟨2025, 1, 26, 0, 0, 0, 0⟩) "quill-city-mall"
          (.bad "not json")).data = .bad "not json"
      ∧ flattenAll ["*"] 0 [] = .ok ([], [])
      ∧ flattenAll ["*"] 0
          [⟨fmtZ ⟨2025, 1, 26, 0, 0, 0, 0⟩, "quill-city-mall",
            .good [⟨none, some "saved-energy", some "kWh", some (.num 5)⟩]⟩] =
          .ok ([⟨"2025-01-26", "00:00:00.000000", "quill-city-mall", none,
            "saved-energy", some "kWh", some (.num 5)⟩], []))
    ∧ flattenAll ["*"] 0
        ([] ++ RawRow.mk (fmtZ ⟨2025, 1, 26, 0, 0, 0, 0⟩) "quill-city-mall"
          (.bad "not json") ::
          [⟨fmtZ ⟨2025, 1, 26, 0, 0, 0, 0⟩, "quill-city-mall",
            .good [⟨none, some "saved-energy", some "kWh", some (.num 5)⟩]⟩]) =
        .ok ([] ++ [⟨"2025-01-26", "00:00:00.000000", "quill-city-mall", none,
          "saved-energy", some "kWh", some (.num 5)⟩],
          [] ++ ("Error processing row: " ++ "not json") :: []) := by
  refine ⟨⟨rfl, rfl, rfl, rfl⟩, ?_⟩
  exact malformed_row_tolerance ["*"] 0 []
    [⟨fmtZ ⟨2025, 1, 26, 0, 0, 0, 0⟩, "quill-city-mall",
      .good [⟨none, some "saved-energy", some "kWh", some (.num 5)⟩]⟩]
    (RawRow.mk (fmtZ ⟨2025, 1, 26, 0, 0, 0, 0⟩) "quill-city-mall" (.bad "not json"))
    ⟨2025, 1, 26, 0, 0, 0, 0⟩ rfl "not json" rfl
    [] [⟨"2025-01-26", "00:00:00.000000", "quill-city-mall", none,
      "saved-energy", some "kWh", some (.num 5)⟩]
    [] [] rfl rfl

/-! ## Order preservation (C7) -/

theorem fetchLoop_rows (b : Nat × Nat → Except String (List KustoRow))
    (ws : List (Nat × Nat)) :
    (fetchLoop b ws).1 = ws.flatMap (fun w => (windowRows b w).map normalizeRow) := by
  induction ws with
  | nil => simp [fetchLoop]
  | cons w ws ih =>
    simp only [fetchLoop, List.flatMap_cons]
    cases hw : b w <;> simp [windowRows, hw, ih]

theorem flattenAll_normalized (allowed : List String) (offUs : Nat) :
    ∀ rows : List KustoRow, (∀ r ∈ rows, ValidDT r.ts) →
      flattenAll allowed offUs (rows.map normalizeRow) =
        .ok (rows.flatMap (fun r => (r.data.filter (passesFilter allowed)).map
          (mkFlatRow (dtAddMicros r.ts offUs) r.site)), []) := by
  intro rows
  induction rows with
  | nil => intro _; simp [flattenAll]
  | cons r rs ih =>
    intro h
    have hnr : normalizeRow r = ⟨fmtZ r.ts, r.site, Payload.good r.data⟩ := rfl
    rw [List.map_cons, flattenAll_cons, hnr,
      flatten_data_normalized allowed offUs r.ts (h r (List.mem_cons_self r rs)) r.site r.data,
      ih (fun r' h' => h r' (List.mem_cons_of_mem r h'))]
    simp [List.flatMap_cons]

theorem flattenAll_flatMap (b : Nat × Nat → Except String (List KustoRow))
    (allowed : List String) (offUs : Nat) :
    ∀ ws : List (Nat × Nat), (∀ w ∈ ws, ∀ r ∈ windowRows b w, ValidDT r.ts) →
      flattenAll allowed offUs (ws.flatMap (fun w => (windowRows b w).map normalizeRow)) =
        .ok (ws.flatMap (fun w => (windowRows b w).flatMap (fun r =>
          (r.data.filter (passesFilter allowed)).map
            (mkFlatRow (dtAddMicros r.ts offUs) r.site))), []) := by
  intro ws
  induction ws with
  | nil => intro _; simp [flattenAll]
  | cons w ws ih =>
    intro h
    rw [List.flatMap_cons, List.flatMap_cons]
    have h1 := flattenAll_normalized allowed offUs (windowRows b w)
      (h w (List.mem_cons_self w ws))
    rw [flattenAll_append allowed offUs _ _ _ h1,
      ih (fun w' hw' => h w' (List.mem_cons_of_mem w hw'))]
    simp [Except.map]

theorem flatMap_congr {α β : Type} (l : List α) (f g : α → List β)
    (h : ∀ x ∈ l, f x = g x) : l.flatMap f = l.flatMap g := by
  induction l with
  | nil => rfl
  | cons a l ih =>
    simp only [List.flatMap_cons]
    rw [h a (List.mem_cons_self a l), ih (fun x hx => h x (List.mem_cons_of_mem a hx))]

theorem enum_flatMap_snd {α β : Type} (l : List α) (g : α → List β) :
    l.enum.flatMap (fun p => g p.2) = l.flatMap g := by
  conv_rhs => rw [← List.enum_map_snd l]
  rw [List.flatMap_map]

theorem enum_filter_snd {α β : Type} (l : List α) (p : α → Bool) (g : α → β) :
    (l.enum.filter (fun ii => p ii.2)).map (fun ii => g ii.2) = (l.filter p).map g := by
  have h1 : (l.enum.filter (fun ii => p ii.2)).map (fun ii => g ii.2)
      = ((l.enum.filter (fun ii => p ii.2)).map Prod.snd).map g :=
    (List.map_map g Prod.snd _).symm
  rw [h1]
  have h2 : (l.enum.filter (fun ii => p ii.2)).map Prod.snd = (l.enum.map Prod.snd).filter p :=
    (List.filter_map Prod.snd l.enum).symm
  rw [h2, List.enum_map_snd]

theorem taggedPipeline_snd (b : Nat × Nat → Except String (List KustoRow))
    (ws : List (Nat × Nat)) (offUs : Nat) (allowed : List String) :
    (taggedPipeline b ws offUs allowed).map Prod.snd =
      ws.flatMap (fun w => (windowRows b w).flatMap (fun r =>
        (r.data.filter (passesFilter allowed)).map
          (mkFlatRow (dtAddMicros r.ts offUs) r.site))) := by
  simp only [taggedPipeline]
  rw [List.map_flatMap]
  have hinner : ∀ wi : Nat × (Nat × Nat),
      (((windowRows b wi.2).enum.flatMap fun ri =>
        (ri.2.data.enum.filter fun ii => passesFilter allowed ii.2).map fun ii =>
          ((wi.1, ri.1, ii.1), mkFlatRow (dtAddMicros ri.2.ts offUs) ri.2.site ii.2)).map
            Prod.snd)
      = (windowRows b wi.2).flatMap (fun r => (r.data.filter (passesFilter allowed)).map
          (mkFlatRow (dtAddMicros r.ts offUs) r.site)) := by
    intro wi
    rw [List.map_flatMap]
    have hrow : ∀ ri : Nat × KustoRow,
        (((ri.2.data.enum.filter fun ii => passesFilter allowed ii.2).map fun ii =>
          ((wi.1, ri.1, ii.1), mkFlatRow (dtAddMicros ri.2.ts offUs) ri.2.site ii.2)).map
            Prod.snd)
        = (ri.2.data.filter (passesFilter allowed)).map
            (mkFlatRow (dtAddMicros ri.2.ts offUs) ri.2.site) := by
      intro ri
      rw [List.map_map]
      exact enum_filter_snd ri.2.data (passesFilter allowed)
        (mkFlatRow (dtAddMicros ri.2.ts offUs) ri.2.site)
    rw [flatMap_congr _ _ _ (fun ri _ => hrow ri)]
    exact enum_flatMap_snd (windowRows b wi.2)
      (fun r => (r.data.filter (passesFilter allowed)).map
        (mkFlatRow (dtAddMicros r.ts offUs) r.site))
  rw [flatMap_congr _ _ _ (fun wi _ => hinner wi)]
  exact enum_flatMap_snd ws
    (fun w => (windowRows b w).flatMap (fun r =>
      (r.data.filter (passesFilter allowed)).map
        (mkFlatRow (dtAddMicros r.ts offUs) r.site)))

theorem pairwise_flatMap_blocks {σ β : Type} (R : β → β → Prop) :
    ∀ (l : List σ) (f : σ → List β),
      (∀ p ∈ l, List.Pairwise R (f p)) →
      List.Pairwise (fun p q => ∀ a ∈ f p, ∀ b ∈ f q, R a b) l →
      List.Pairwise R (l.flatMap f) := by
  intro l f
  induction l with
  | nil => intro _ _; simp
  | cons x l ih =>
    intro hin hcross
    rw [List.flatMap_cons, List.pairwise_append]
    rcases List.pairwise_cons.mp hcross with ⟨hx, hcross'⟩
    refine ⟨hin x (List.mem_cons_self x l),
      ih (fun p hp => hin p (List.mem_cons_of_mem x hp)) hcross', ?_⟩
    intro a ha b hb
    rcases List.mem_flatMap.mp hb with ⟨q, hq, hbq⟩
    exact hx q hq a ha b hbq

theorem pairwise_fst_enum {α : Type} (l : List α) :
    List.Pairwise (fun a b => a.1 < b.1) l.enum := by
  have h1 : List.Pairwise (· < ·) (l.enum.map Prod.fst) := by
    rw [List.enum_map_fst]
    exact List.pairwise_lt_range l.length
  exact List.pairwise_map.mp h1

theorem tag_mem_row (offUs : Nat) (allowed : List String) (w1 r1 : Nat) (r : KustoRow) :
    ∀ x ∈ ((r.data.enum.filter fun ii => passesFilter allowed ii.2).map fun ii =>
      ((w1, r1, ii.1), mkFlatRow (dtAddMicros r.ts offUs) r.site ii.2)),
      x.1.1 = w1 ∧ x.1.2.1 = r1 := by
  intro x hx
  rcases List.mem_map.mp hx with ⟨ii, hii, rfl⟩
  exact ⟨rfl, rfl⟩

theorem tag_mem_window (b : Nat × Nat → Except String (List KustoRow)) (offUs : Nat)
    (allowed : List String) (wi : Nat × (Nat × Nat)) :
    ∀ x ∈ ((windowRows b wi.2).enum.flatMap fun ri =>
      (ri.2.data.enum.filter fun ii => passesFilter allowed ii.2).map fun ii =>
        ((wi.1, ri.1, ii.1), mkFlatRow (dtAddMicros ri.2.ts offUs) ri.2.site ii.2)),
      x.1.1 = wi.1 := by
  intro x hx
  rcases List.mem_flatMap.mp hx with ⟨ri, hri, hx'⟩
  exact (tag_mem_row offUs allowed wi.1 ri.1 ri.2 x hx').1

theorem taggedPipeline_tags_sorted (b : Nat × Nat → Except String (List KustoRow))
    (ws : List (Nat × Nat)) (offUs : Nat) (allowed : List String) :
    List.Pairwise lexLt ((taggedPipeline b ws offUs allowed).map Prod.fst) := by
  apply List.pairwise_map.mpr
  simp only [taggedPipeline]
  apply pairwise_flatMap_blocks
  · intro wi hwi
    apply pairwise_flatMap_blocks
    · intro ri hri
      apply List.pairwise_map.mpr
      have hfil : List.Pairwise (fun a b => a.1 < b.1)
          (ri.2.data.enum.filter fun ii => passesFilter allowed ii.2) :=
        List.Pairwise.sublist (List.filter_sublist _) (pairwise_fst_enum ri.2.data)
      exact hfil.imp (fun hlt => Or.inr ⟨rfl, Or.inr ⟨rfl, hlt⟩⟩)
    · have henum : List.Pairwise (fun a b => a.1 < b.1) (windowRows b wi.2).enum :=
        pairwise_fst_enum (windowRows b wi.2)
      refine henum.imp ?_
      intro ri rj hlt x hx y hy
      have hxm := tag_mem_row offUs allowed wi.1 ri.1 ri.2 x hx
      have hym := tag_mem_row offUs allowed wi.1 rj.1 rj.2 y hy
      exact Or.inr ⟨hxm.1.trans hym.1.symm, Or.inl (by omega)⟩
  · have henum : List.Pairwise (fun a b => a.1 < b.1) ws.enum := pairwise_fst_enum ws
    refine henum.imp ?_
    intro wi wj hlt x hx y hy
    have hxm := tag_mem_window b offUs allowed wi x hx
    have hym := tag_mem_window b offUs allowed wj y hy
    exact Or.inl (by omega)

/-- C7: order preservation: under well-formed backend timestamps, the
pipeline's flattened output is exactly the tagged pipeline's rows stripped
of their source coordinates (so no stage reorders and the filter only
removes elements), and the source coordinates (window index, row index,
reading index) of the output are strictly increasing in lexicographic
order. -/
theorem order_preservation (b : Nat × Nat → Except String (List KustoRow))
    (ws : List (Nat × Nat)) (offUs : Nat) (allowed : List String)
    (h : ∀ w ∈ ws, ∀ r ∈ windowRows b w, ValidDT r.ts) :
    flattenAll allowed offUs (fetchLoop b ws).1 =
      .ok ((taggedPipeline b ws offUs allowed).map Prod.snd, [])
    ∧ List.Pairwise lexLt ((taggedPipeline b ws offUs allowed).map Prod.fst) := by
  constructor
  · rw [fetchLoop_rows, flattenAll_flatMap b allowed offUs ws h, taggedPipeline_snd]
  · exact taggedPipeline_tags_sorted b ws offUs allowed

/-- C7 witness: a one-window, one-row, one-reading pipeline. -/
theorem order_preservation_witness :
    (∀ w ∈ [((0 : Nat), (1 : Nat))], ∀ r ∈ windowRows demoBackend2 w, ValidDT r.ts)
    ∧ (flattenAll ["*"] 0 (fetchLoop demoBackend2 [(0, 1)]).1 =
        .ok ((taggedPipeline demoBackend2 [(0, 1)] 0 ["*"]).map Prod.snd, [])
      ∧ List.Pairwise lexLt ((taggedPipeline demoBackend2 [(0, 1)] 0 ["*"]).map Prod.fst)) := by
  have h : ∀ w ∈ [((0 : Nat), (1 : Nat))], ∀ r ∈ windowRows demoBackend2 w, ValidDT r.ts := by
    decide
  exact ⟨h, order_preservation demoBackend2 [(0, 1)] 0 ["*"] h⟩
